import Mathlib

/-
Verification development for the decision core of the scheduled-job (cronjob)
controller: schedule evaluation (linear and binary-search strategies),
ownership resolution and grouping, child-job ordering, and metrics
registration.  Timestamps are modelled as integers (seconds on a
timezone-normalized clock); machine maps and slices are modelled as
association lists and `List`.
-/

namespace CronjobVerify

/-- Modelled from the spec: a parsed cron schedule expression (the
`cron.Schedule` value produced by `cron.ParseStandard`, whose implementation
is not among the sources).  Its single operation `next` returns the first
recurrence point strictly after the given instant. -/
structure Schedule where
  next : Int → Int

/-- `t` is a recurrence point of the schedule `s`: it is the first recurrence
strictly after the instant just before it. -/
def Rec (s : Schedule) (t : Int) : Prop := s.next (t - 1) = t

instance (s : Schedule) (t : Int) : Decidable (Rec s t) :=
  inferInstanceAs (Decidable (_ = _))

/-- Modelled from the spec: `next` behaves like a cron recurrence engine —
it moves strictly forward, lands on a recurrence point, and lands on the
least recurrence point after its argument. -/
structure Valid (s : Schedule) : Prop where
  lt_next : ∀ t, t < s.next t
  rec_next : ∀ t, Rec s (s.next t)
  next_le : ∀ t u, t < u → Rec s u → s.next t ≤ u

theorem Valid.next_mono {s : Schedule} (hv : Valid s) {t u : Int} (h : t ≤ u) :
    s.next t ≤ s.next u := by
  rcases eq_or_lt_of_le h with rfl | hlt
  · exact le_rfl
  · exact hv.next_le t (s.next u) (lt_trans hlt (hv.lt_next u)) (hv.rec_next u)

/-- A periodic schedule firing every `p` seconds at multiples of `p`;
`* * * * *` (minutely) is `periodic 60`, `0 * * * *` (hourly on the hour)
is `periodic 3600`. -/
def periodic (p : Int) : Schedule :=
  ⟨fun t => p * (t / p + 1)⟩

theorem valid_periodic_minutely : Valid (periodic 60) := by
  refine ⟨fun t => ?_, fun t => ?_, fun t u h1 h2 => ?_⟩
  · show t < 60 * (t / 60 + 1)
    omega
  · show 60 * ((60 * (t / 60 + 1) - 1) / 60 + 1) = 60 * (t / 60 + 1)
    omega
  · show 60 * (t / 60 + 1) ≤ u
    have h2' : 60 * ((u - 1) / 60 + 1) = u := h2
    omega

theorem valid_periodic_hourly : Valid (periodic 3600) := by
  refine ⟨fun t => ?_, fun t => ?_, fun t u h1 h2 => ?_⟩
  · show t < 3600 * (t / 3600 + 1)
    omega
  · show 3600 * ((3600 * (t / 3600 + 1) - 1) / 3600 + 1) = 3600 * (t / 3600 + 1)
    omega
  · show 3600 * (t / 3600 + 1) ≤ u
    have h2' : 3600 * ((u - 1) / 3600 + 1) = u := h2
    omega

theorem rec_periodic_minutely (t : Int) : Rec (periodic 60) t ↔ 60 ∣ t := by
  show 60 * ((t - 1) / 60 + 1) = t ↔ 60 ∣ t
  omega

theorem rec_periodic_hourly (t : Int) : Rec (periodic 3600) t ↔ 3600 ∣ t := by
  show 3600 * ((t - 1) / 3600 + 1) = t ↔ 3600 ∣ t
  omega

/-- Modelled from the spec: the linear strategy's enumeration loop —
starting from the instant `t`, repeatedly take the next recurrence until it
exceeds `now`, collecting every visited instant that is at-or-before `now`.
`fuel` bounds the iteration for termination; any fuel of at least
`now + 1 - t` is enough. -/
def enumFirings (s : Schedule) (now : Int) : Int → Nat → List Int
  | _, 0 => []
  | t, fuel + 1 => if t ≤ now then t :: enumFirings s now (s.next t) fuel else []

/-- Modelled from the spec: every recurrence point strictly after `start`
and at-or-before `now`, in the order the linear strategy visits them. -/
def firingsBetween (s : Schedule) (start now : Int) : List Int :=
  enumFirings s now (s.next start) (now - start).toNat

theorem mem_enumFirings {s : Schedule} (hv : Valid s) (now : Int) :
    ∀ (fuel : Nat) (t x : Int), (now + 1 - t).toNat ≤ fuel →
      (x ∈ enumFirings s now t fuel ↔ x ≤ now ∧ (x = t ∨ (Rec s x ∧ t < x))) := by
  intro fuel
  induction fuel with
  | zero =>
    intro t x hfuel
    have ht : now < t := by omega
    simp only [enumFirings, List.not_mem_nil, false_iff]
    rintro ⟨hxnow, hx | ⟨_, htx⟩⟩ <;> omega
  | succ fuel ih =>
    intro t x hfuel
    by_cases ht : t ≤ now
    · have hstep : t < s.next t := hv.lt_next t
      have hfuel' : (now + 1 - s.next t).toNat ≤ fuel := by omega
      simp only [enumFirings, if_pos ht, List.mem_cons, ih (s.next t) x hfuel']
      constructor
      · rintro (rfl | ⟨hxnow, rfl | ⟨hrec, hlt⟩⟩)
        · exact ⟨ht, Or.inl rfl⟩
        · exact ⟨hxnow, Or.inr ⟨hv.rec_next t, hstep⟩⟩
        · exact ⟨hxnow, Or.inr ⟨hrec, lt_trans hstep hlt⟩⟩
      · rintro ⟨hxnow, rfl | ⟨hrec, hlt⟩⟩
        · exact Or.inl rfl
        · have hle : s.next t ≤ x := hv.next_le t x hlt hrec
          rcases eq_or_lt_of_le hle with rfl | hlt'
          · exact Or.inr ⟨hxnow, Or.inl rfl⟩
          · exact Or.inr ⟨hxnow, Or.inr ⟨hrec, hlt'⟩⟩
    · simp only [enumFirings, if_neg ht, List.not_mem_nil, false_iff]
      rintro ⟨hxnow, rfl | ⟨_, htx⟩⟩ <;> omega

theorem mem_firingsBetween {s : Schedule} (hv : Valid s) (start now x : Int) :
    x ∈ firingsBetween s start now ↔ Rec s x ∧ start < x ∧ x ≤ now := by
  have hstep : start < s.next start := hv.lt_next start
  have hfuel : (now + 1 - s.next start).toNat ≤ (now - start).toNat := by omega
  rw [firingsBetween, mem_enumFirings hv now _ _ x hfuel]
  constructor
  · rintro ⟨hxnow, rfl | ⟨hrec, hlt⟩⟩
    · exact ⟨hv.rec_next start, hstep, hxnow⟩
    · exact ⟨hrec, lt_trans hstep hlt, hxnow⟩
  · rintro ⟨hrec, hlt, hxnow⟩
    have hle : s.next start ≤ x := hv.next_le start x hlt hrec
    rcases eq_or_lt_of_le hle with rfl | hlt'
    · exact ⟨hxnow, Or.inl rfl⟩
    · exact ⟨hxnow, Or.inr ⟨hrec, hlt'⟩⟩

theorem le_of_mem_enumFirings {s : Schedule} (hv : Valid s) (now : Int) :
    ∀ (fuel : Nat) (t x : Int), x ∈ enumFirings s now t fuel → t ≤ x := by
  intro fuel
  induction fuel with
  | zero => intro t x hx; simp [enumFirings] at hx
  | succ fuel ih =>
    intro t x hx
    by_cases ht : t ≤ now
    · simp only [enumFirings, if_pos ht, List.mem_cons] at hx
      rcases hx with rfl | hx
      · exact le_rfl
      · exact le_trans (le_of_lt (hv.lt_next t)) (ih (s.next t) x hx)
    · simp [enumFirings, if_neg ht] at hx

theorem pairwise_enumFirings {s : Schedule} (hv : Valid s) (now : Int) :
    ∀ (fuel : Nat) (t : Int), (enumFirings s now t fuel).Pairwise (· < ·) := by
  intro fuel
  induction fuel with
  | zero => intro t; simp [enumFirings]
  | succ fuel ih =>
    intro t
    by_cases ht : t ≤ now
    · simp only [enumFirings, if_pos ht, List.pairwise_cons]
      refine ⟨fun x hx => ?_, ih (s.next t)⟩
      exact lt_of_lt_of_le (hv.lt_next t) (le_of_mem_enumFirings hv now fuel (s.next t) x hx)
    · simp [enumFirings, if_neg ht]

theorem pairwise_firingsBetween {s : Schedule} (hv : Valid s) (start now : Int) :
    (firingsBetween s start now).Pairwise (· < ·) :=
  pairwise_enumFirings hv now _ _

theorem nodup_firingsBetween {s : Schedule} (hv : Valid s) (start now : Int) :
    (firingsBetween s start now).Nodup :=
  (pairwise_firingsBetween hv start now).imp ne_of_lt

/-- `r` is the latest recurrence point of `s` in the half-open interval
`(start, e]`. -/
def IsLatestMissed (s : Schedule) (start e r : Int) : Prop :=
  Rec s r ∧ start < r ∧ r ≤ e ∧ ∀ u, Rec s u → start < u → u ≤ e → u ≤ r

theorem IsLatestMissed.unique {s : Schedule} {start e r r' : Int}
    (h : IsLatestMissed s start e r) (h' : IsLatestMissed s start e r') : r = r' :=
  le_antisymm (h'.2.2.2 r h.1 h.2.1 h.2.2.1) (h.2.2.2 r' h'.1 h'.2.1 h'.2.2.1)

theorem getLast?_cons_ne_none : ∀ (a : Int) (l : List Int), (a :: l).getLast? ≠ none
  | _, [] => by simp
  | _, b :: t => by rw [List.getLast?_cons_cons]; exact getLast?_cons_ne_none b t

theorem getLast?_max : ∀ {l : List Int}, l.Pairwise (· < ·) → ∀ {r : Int},
    l.getLast? = some r → r ∈ l ∧ ∀ x ∈ l, x ≤ r := by
  intro l
  induction l with
  | nil => intro _ r h; simp at h
  | cons a l ih =>
    intro hp r hlast
    cases l with
    | nil =>
      simp only [List.getLast?_singleton, Option.some.injEq] at hlast
      refine ⟨?_, ?_⟩
      · rw [← hlast]; exact List.mem_singleton_self a
      · intro x hx; simp at hx; omega
    | cons b t =>
      rw [List.getLast?_cons_cons] at hlast
      obtain ⟨hmem, hmax⟩ := ih (List.Pairwise.of_cons hp) hlast
      refine ⟨List.mem_cons_of_mem a hmem, ?_⟩
      intro x hx
      rcases List.mem_cons.mp hx with rfl | hx
      · exact le_of_lt ((List.pairwise_cons.mp hp).1 r hmem)
      · exact hmax x hx

/-- Modelled from the spec: the linear strategy `getLatestMissedSchedule` —
walk forward one recurrence at a time from `start`, and report the latest
recurrence at-or-before `e` (if any) together with the number of missed
recurrences. -/
def getLatestMissedSchedule (start e : Int) (s : Schedule) : Option Int × Nat :=
  ((firingsBetween s start e).getLast?, (firingsBetween s start e).length)

theorem linear_latest_some {s : Schedule} (hv : Valid s) {start e r : Int}
    (h : (firingsBetween s start e).getLast? = some r) : IsLatestMissed s start e r := by
  obtain ⟨hmem, hmax⟩ := getLast?_max (pairwise_firingsBetween hv start e) h
  obtain ⟨hrec, hlt, hle⟩ := (mem_firingsBetween hv start e r).mp hmem
  refine ⟨hrec, hlt, hle, fun u hu h1 h2 => ?_⟩
  exact hmax u ((mem_firingsBetween hv start e u).mpr ⟨hu, h1, h2⟩)

theorem linear_latest_none {s : Schedule} (hv : Valid s) {start e : Int} :
    (firingsBetween s start e).getLast? = none ↔
      ¬ ∃ r, Rec s r ∧ start < r ∧ r ≤ e := by
  constructor
  · intro h ⟨r, hr⟩
    have hmem : r ∈ firingsBetween s start e := (mem_firingsBetween hv start e r).mpr hr
    cases hl : firingsBetween s start e with
    | nil => rw [hl] at hmem; simp at hmem
    | cons a t => rw [hl] at h; exact getLast?_cons_ne_none a t h
  · intro h
    cases hl : firingsBetween s start e with
    | nil => rfl
    | cons a t =>
      exfalso
      have hmem : a ∈ firingsBetween s start e := by rw [hl]; exact List.mem_cons_self a t
      exact h ⟨a, (mem_firingsBetween hv start e a).mp hmem⟩

/-- Modelled from the spec: the narrowing loop of the binary-search strategy.
The invariant is that some recurrence lies in `(lo, e]` but none lies in
`(hi, e]`; the midpoint test asks on which side of the midpoint the latest
recurrence falls and shifts the corresponding boundary. -/
def bsearchLatest (s : Schedule) (e : Int) : Nat → Int → Int → Int
  | 0, _, hi => hi
  | fuel + 1, lo, hi =>
    if hi ≤ lo + 1 then hi
    else
      if e < s.next (lo + (hi - lo) / 2) then
        bsearchLatest s e fuel lo (lo + (hi - lo) / 2)
      else
        bsearchLatest s e fuel (lo + (hi - lo) / 2) hi

/-- Modelled from the spec: the binary-search strategy
`getLatestMissedScheduleBinarySearch` — answer "not found" when no recurrence
lies in `(start, e]`, and otherwise binary-search over the elapsed-time space
`[start, e]` for the latest recurrence at-or-before `e`. -/
def getLatestMissedScheduleBinarySearch (start e : Int) (s : Schedule) : Option Int :=
  if e < s.next start then none
  else some (bsearchLatest s e (e - start).toNat start e)

theorem bsearchLatest_spec {s : Schedule} (e : Int) :
    ∀ (fuel : Nat) (lo hi : Int), lo < hi → ¬ e < s.next lo → e < s.next hi →
      (hi - lo).toNat ≤ fuel + 1 →
      lo < bsearchLatest s e fuel lo hi ∧ bsearchLatest s e fuel lo hi ≤ hi ∧
        e < s.next (bsearchLatest s e fuel lo hi) ∧
        ¬ e < s.next (bsearchLatest s e fuel lo hi - 1) := by
  intro fuel
  induction fuel with
  | zero =>
    intro lo hi hlt hlo hhi hfuel
    have : hi = lo + 1 := by omega
    subst this
    simp only [bsearchLatest]
    refine ⟨by omega, le_rfl, hhi, by simpa using hlo⟩
  | succ fuel ih =>
    intro lo hi hlt hlo hhi hfuel
    by_cases hsmall : hi ≤ lo + 1
    · have : hi = lo + 1 := by omega
      subst this
      simp only [bsearchLatest, if_pos (le_refl _)]
      refine ⟨by omega, le_rfl, hhi, by simpa using hlo⟩
    · have hmid1 : lo < lo + (hi - lo) / 2 := by omega
      have hmid2 : lo + (hi - lo) / 2 < hi := by omega
      by_cases hP : e < s.next (lo + (hi - lo) / 2)
      · have hrec := ih lo (lo + (hi - lo) / 2) hmid1 hlo hP (by omega)
        simp only [bsearchLatest, if_neg hsmall, if_pos hP]
        exact ⟨hrec.1, le_trans hrec.2.1 (le_of_lt hmid2), hrec.2.2⟩
      · have hrec := ih (lo + (hi - lo) / 2) hi hmid2 hP hhi (by omega)
        simp only [bsearchLatest, if_neg hsmall, if_neg hP]
        exact ⟨lt_trans hmid1 hrec.1, hrec.2.1, hrec.2.2⟩

theorem latest_of_bounds {s : Schedule} (hv : Valid s) {start e r : Int}
    (h1 : start < r) (h2 : r ≤ e) (hP : e < s.next r) (hQ : ¬ e < s.next (r - 1)) :
    IsLatestMissed s start e r := by
  have hrec : Rec s r := by
    have hge : r ≤ s.next (r - 1) := by have := hv.lt_next (r - 1); omega
    rcases eq_or_lt_of_le hge with h | h
    · exact h.symm
    · exfalso
      have := hv.next_le r (s.next (r - 1)) h (hv.rec_next (r - 1))
      omega
  refine ⟨hrec, h1, h2, fun u hu h3 h4 => ?_⟩
  by_contra hur
  push_neg at hur
  have := hv.next_le r u hur hu
  omega

theorem binarySearch_eq_some {s : Schedule} (hv : Valid s) {start e r : Int}
    (h : getLatestMissedScheduleBinarySearch start e s = some r) :
    IsLatestMissed s start e r := by
  rw [getLatestMissedScheduleBinarySearch] at h
  by_cases hc : e < s.next start
  · rw [if_pos hc] at h; exact absurd h (by simp)
  · rw [if_neg hc] at h
    have hlt : start < e := by have := hv.lt_next start; omega
    have hspec := bsearchLatest_spec e (e - start).toNat start e hlt hc (hv.lt_next e)
      (by omega)
    obtain ⟨ha, hb, hc', hd⟩ := hspec
    have hr : r = bsearchLatest s e (e - start).toNat start e := by
      injection h.symm
    subst hr
    exact latest_of_bounds hv ha hb hc' hd

theorem binarySearch_eq_none {s : Schedule} (hv : Valid s) {start e : Int} :
    getLatestMissedScheduleBinarySearch start e s = none ↔
      ¬ ∃ r, Rec s r ∧ start < r ∧ r ≤ e := by
  rw [getLatestMissedScheduleBinarySearch]
  by_cases hc : e < s.next start
  · rw [if_pos hc]
    simp only [true_iff]
    rintro ⟨r, hr, h1, h2⟩
    have := hv.next_le start r h1 hr
    omega
  · rw [if_neg hc]
    simp only [reduceCtorEq, false_iff, not_not]
    exact ⟨s.next start, hv.rec_next start, hv.lt_next start, by omega⟩

/-- A schedule object, as the evaluator sees it: creation timestamp, parsed
schedule expression, optional starting deadline (in seconds), and the
optional timestamp of the most recent recorded firing. -/
structure CronJob where
  creationTimestamp : Int
  schedule : Schedule
  startingDeadlineSeconds : Option Int
  lastScheduleTime : Option Int

/-- The error kind named by the spec for an unbounded backlog; the
evaluator's tests show it is never actually raised (the binary-search
fallback runs instead), so no branch below produces it. -/
inductive ScheduleError where
  | tooManyMissedSchedules
deriving DecidableEq

/-- The protective limit on the number of enumerated missed schedule
times. -/
def maxMissedSchedules : Nat := 100

/-- The lower bound of the evaluation interval: the last recorded firing
time, or the creation time when none is recorded. -/
def lowerBound (sj : CronJob) : Int :=
  sj.lastScheduleTime.getD sj.creationTimestamp

/-- Modelled from the spec: `getRecentUnmetScheduleTimes` (absent from the
sources; only its tests are present) — report every recurrence point
strictly after the lower bound (`lastScheduleTime`, or the creation
timestamp when that is absent) and at-or-before `now`.  When more than
`maxMissedSchedules` points would be reported, the evaluator does not
enumerate them: as its tests pin down (success with two times, the last
equal to `now`, at hundreds of misses), it locates the latest missed
recurrence with the binary-search strategy and returns just that time
followed by `now`, so the caller advances its bookkeeping to `now`.  The
starting deadline does not enter the evaluation (its tests report firings
older than `now - deadline`; deadline filtering is the caller's concern),
and no error is raised. -/
def getRecentUnmetScheduleTimes (sj : CronJob) (now : Int) :
    Except ScheduleError (List Int) :=
  let earliestTime := sj.lastScheduleTime.getD sj.creationTimestamp
  let starts := firingsBetween sj.schedule earliestTime now
  if starts.length > maxMissedSchedules then
    match getLatestMissedScheduleBinarySearch earliestTime now sj.schedule with
    | some latest => .ok [latest, now]
    | none => .ok []
  else .ok starts

theorem getRecent_def (sj : CronJob) (now : Int) :
    getRecentUnmetScheduleTimes sj now =
      if (firingsBetween sj.schedule (lowerBound sj) now).length >
          maxMissedSchedules
      then
        match getLatestMissedScheduleBinarySearch (lowerBound sj) now sj.schedule with
        | some latest => .ok [latest, now]
        | none => .ok []
      else .ok (firingsBetween sj.schedule (lowerBound sj) now) := rfl

theorem getRecent_ne_error (sj : CronJob) (now : Int) (e : ScheduleError) :
    getRecentUnmetScheduleTimes sj now ≠ .error e := by
  intro h
  rw [getRecent_def] at h
  by_cases hc : (firingsBetween sj.schedule (lowerBound sj) now).length >
      maxMissedSchedules
  · rw [if_pos hc] at h
    rcases hb : getLatestMissedScheduleBinarySearch (lowerBound sj) now sj.schedule
        with _ | r
    · rw [hb] at h
      exact absurd h (by simp)
    · rw [hb] at h
      exact absurd h (by simp)
  · rw [if_neg hc] at h
    exact absurd h (by simp)

theorem getRecent_of_length_le (sj : CronJob) (now : Int)
    (hc : (firingsBetween sj.schedule (lowerBound sj) now).length ≤
      maxMissedSchedules) :
    getRecentUnmetScheduleTimes sj now =
      .ok (firingsBetween sj.schedule (lowerBound sj) now) := by
  rw [getRecent_def, if_neg (by omega)]

theorem getRecent_fallback {sj : CronJob} {now : Int} (hv : Valid sj.schedule)
    (hc : (firingsBetween sj.schedule (lowerBound sj) now).length >
      maxMissedSchedules) :
    ∃ r, IsLatestMissed sj.schedule (lowerBound sj) now r ∧
      getRecentUnmetScheduleTimes sj now = .ok [r, now] := by
  have hex : ∃ r, Rec sj.schedule r ∧ lowerBound sj < r ∧ r ≤ now := by
    rcases hl : firingsBetween sj.schedule (lowerBound sj) now with _ | ⟨a, t⟩
    · rw [hl] at hc
      exact absurd hc (by simp [maxMissedSchedules])
    · have hmem : a ∈ firingsBetween sj.schedule (lowerBound sj) now := by
        rw [hl]
        exact List.mem_cons_self a t
      exact ⟨a, (mem_firingsBetween hv _ _ a).mp hmem⟩
  rcases hb : getLatestMissedScheduleBinarySearch (lowerBound sj) now sj.schedule
      with _ | r
  · exact absurd hex ((binarySearch_eq_none hv).mp hb)
  · refine ⟨r, binarySearch_eq_some hv hb, ?_⟩
    rw [getRecent_def, if_pos hc, hb]

/-- The number of recurrence points of `s` in the interval `(a, b]`. -/
def countRecIoc (s : Schedule) (a b : Int) : Nat :=
  ((Finset.Ioc a b).filter (fun x => Rec s x)).card

theorem countRecIoc_eq_length {s : Schedule} (hv : Valid s) (a b : Int) :
    countRecIoc s a b = (firingsBetween s a b).length := by
  rw [← List.toFinset_card_of_nodup (nodup_firingsBetween hv a b)]
  apply Finset.card_nbij id
  · intro x hx
    simp only [Finset.mem_coe, Finset.mem_filter, Finset.mem_Ioc] at hx
    simp only [id, Finset.mem_coe, List.mem_toFinset, mem_firingsBetween hv]
    tauto
  · intro x hx y hy hxy
    exact hxy
  · intro x hx
    simp only [Finset.mem_coe, List.mem_toFinset, mem_firingsBetween hv] at hx
    refine ⟨x, ?_, rfl⟩
    simp only [Finset.mem_coe, Finset.mem_filter, Finset.mem_Ioc]
    tauto

theorem singleton_of_pairwise_mem {l : List Int} {p : Int} (hp : l.Pairwise (· < ·))
    (h : ∀ x, x ∈ l ↔ x = p) : l = [p] := by
  cases l with
  | nil => exact absurd ((h p).mpr rfl) (List.not_mem_nil p)
  | cons a t =>
    have ha : a = p := (h a).mp (List.mem_cons_self a t)
    cases t with
    | nil => rw [ha]
    | cons b u =>
      exfalso
      have hb : b = p := (h b).mp (by simp)
      have hab := (List.pairwise_cons.mp hp).1 b (by simp)
      omega

/-- C1: For every start time, end time, and valid parsed schedule
expression, the linear strategy (`getLatestMissedSchedule`) and the
binary-search strategy (`getLatestMissedScheduleBinarySearch`) agree on
whether any recurrence point exists in the half-open interval `(start, e]`,
and when one exists they return the same latest recurrence timestamp; the
binary-search strategy returns "not found" exactly when no recurrence falls
within `(start, e]`. -/
theorem claim_c1 (start e : Int) (s : Schedule) (hv : Valid s) :
    (getLatestMissedSchedule start e s).1 =
        getLatestMissedScheduleBinarySearch start e s ∧
      (getLatestMissedScheduleBinarySearch start e s = none ↔
        ¬ ∃ r, Rec s r ∧ start < r ∧ r ≤ e) := by
  refine ⟨?_, binarySearch_eq_none hv⟩
  rcases hbin : getLatestMissedScheduleBinarySearch start e s with _ | r
  · have hnone := (binarySearch_eq_none hv).mp hbin
    show (firingsBetween s start e).getLast? = none
    exact (linear_latest_none hv).mpr hnone
  · have hlat := binarySearch_eq_some hv hbin
    show (firingsBetween s start e).getLast? = some r
    rcases hlin : (firingsBetween s start e).getLast? with _ | r'
    · exact absurd ⟨r, hlat.1, hlat.2.1, hlat.2.2.1⟩ ((linear_latest_none hv).mp hlin)
    · rw [(linear_latest_some hv hlin).unique hlat]

/-- Witness for C1: the minutely schedule on the interval `(0, 125]`, where
both strategies find the latest missed recurrence `120`. -/
theorem claim_c1_witness :
    ((getLatestMissedSchedule 0 125 (periodic 60)).1 =
        getLatestMissedScheduleBinarySearch 0 125 (periodic 60)) ∧
      getLatestMissedScheduleBinarySearch 0 125 (periodic 60) = some 120 :=
  ⟨(claim_c1 0 125 (periodic 60) valid_periodic_minutely).1, by decide⟩

set_option maxRecDepth 4000 in
/-- C2 counterexample: `lastScheduleTime` lags `now` by 277 hourly periods
(no starting deadline), and the evaluation succeeds — but the result is only
the latest missed recurrence followed by `now`; the intervening recurrence
point `3600` does not appear, and `1000000` is not a recurrence point. -/
theorem claim_c2_counterexample :
    getRecentUnmetScheduleTimes ⟨0, periodic 3600, none, some 0⟩ 1000000 =
        .ok [997200, 1000000] ∧
      Rec (periodic 3600) 3600 ∧ (0 : Int) < 3600 ∧ (3600 : Int) ≤ 1000000 ∧
      (3600 : Int) ∉ [(997200 : Int), 1000000] ∧
      ¬ Rec (periodic 3600) 1000000 :=
  ⟨rfl, by decide, by decide, by decide, by decide, by decide⟩

/-- C2 (amended): for a schedule object with a valid expression and no
starting deadline: when at most the threshold number of recurrence points
lie strictly after the lower bound (`lastScheduleTime`, or
`creationTimestamp` when absent) and at-or-before `now`,
`getRecentUnmetScheduleTimes` returns exactly those recurrence points in
strictly increasing order; when more do, the intervening points are not
enumerated — only the latest such recurrence point followed by `now` is
returned. -/
theorem claim_c2 (sj : CronJob) (now : Int) (hv : Valid sj.schedule)
    (_hd : sj.startingDeadlineSeconds = none) :
    (countRecIoc sj.schedule (lowerBound sj) now ≤ maxMissedSchedules →
      ∃ ts, getRecentUnmetScheduleTimes sj now = .ok ts ∧
        ts.Pairwise (· < ·) ∧
        ∀ x, x ∈ ts ↔ (Rec sj.schedule x ∧ lowerBound sj < x ∧ x ≤ now)) ∧
    (countRecIoc sj.schedule (lowerBound sj) now > maxMissedSchedules →
      ∃ r, IsLatestMissed sj.schedule (lowerBound sj) now r ∧
        getRecentUnmetScheduleTimes sj now = .ok [r, now]) := by
  rw [countRecIoc_eq_length hv]
  constructor
  · intro hle
    exact ⟨_, getRecent_of_length_le sj now hle, pairwise_firingsBetween hv _ _,
      fun x => mem_firingsBetween hv _ _ x⟩
  · intro hgt
    exact getRecent_fallback hv hgt

/-- Witness for C2: hourly schedule created 600 seconds before the hour, no
last firing recorded, `now` two seconds past the hour: below the threshold,
so exactly the firing at the hour is reported. -/
theorem claim_c2_witness :
    ∃ ts, getRecentUnmetScheduleTimes ⟨-600, periodic 3600, none, none⟩ 2 =
        .ok ts ∧
      ts.Pairwise (· < ·) ∧
      ∀ x, x ∈ ts ↔ (Rec (periodic 3600) x ∧ (-600 : Int) < x ∧ x ≤ 2) :=
  (claim_c2 ⟨-600, periodic 3600, none, none⟩ 2 valid_periodic_hourly rfl).1
    (by
      show countRecIoc (periodic 3600) (-600) 2 ≤ maxMissedSchedules
      rw [countRecIoc_eq_length valid_periodic_hourly]
      decide)

set_option maxRecDepth 4000 in
/-- C3 counterexample: 138 recurrence points lie between `lastScheduleTime`
and `now` — more than the threshold — yet `getRecentUnmetScheduleTimes`
does not fail with `tooManyMissedSchedules`: it succeeds, returning the
latest missed recurrence and `now`. -/
theorem claim_c3_counterexample :
    countRecIoc (periodic 3600) 0 500000 > maxMissedSchedules ∧
      getRecentUnmetScheduleTimes ⟨0, periodic 3600, none, some 0⟩ 500000 =
        .ok [496800, 500000] := by
  constructor
  · rw [countRecIoc_eq_length valid_periodic_hourly]
    decide
  · rfl

/-- C3 (amended): when the number of recurrence points between the starting
bound (`lastScheduleTime` or `creationTimestamp`) and `now` exceeds the
protective threshold, `getRecentUnmetScheduleTimes` does not enumerate the
firings: it succeeds, returning only the latest missed firing time followed
by `now`; no `TooManyMissedSchedules` error is raised — the evaluation never
returns an error — and at or below the threshold every firing is returned
with no error. -/
theorem claim_c3 (sj : CronJob) (now : Int) (hv : Valid sj.schedule) :
    (∀ e, getRecentUnmetScheduleTimes sj now ≠ .error e) ∧
    (countRecIoc sj.schedule (lowerBound sj) now > maxMissedSchedules →
      ∃ r, IsLatestMissed sj.schedule (lowerBound sj) now r ∧
        getRecentUnmetScheduleTimes sj now = .ok [r, now]) ∧
    (countRecIoc sj.schedule (lowerBound sj) now ≤ maxMissedSchedules →
      getRecentUnmetScheduleTimes sj now =
        .ok (firingsBetween sj.schedule (lowerBound sj) now)) := by
  rw [countRecIoc_eq_length hv]
  exact ⟨getRecent_ne_error sj now,
    fun hgt => getRecent_fallback hv hgt,
    fun hle => getRecent_of_length_le sj now hle⟩

set_option maxRecDepth 4000 in
/-- Witness for C3: hourly schedule, last firing at `0`, `now` at `444000`:
123 missed recurrences exceed the threshold, the evaluation raises no error,
and the latest missed recurrence plus `now` are returned. -/
theorem claim_c3_witness :
    (∀ e, getRecentUnmetScheduleTimes ⟨0, periodic 3600, none, some 0⟩ 444000 ≠
        .error e) ∧
      ∃ r, IsLatestMissed (periodic 3600) 0 444000 r ∧
        getRecentUnmetScheduleTimes ⟨0, periodic 3600, none, some 0⟩ 444000 =
          .ok [r, 444000] :=
  ⟨(claim_c3 ⟨0, periodic 3600, none, some 0⟩ 444000 valid_periodic_hourly).1,
   (claim_c3 ⟨0, periodic 3600, none, some 0⟩ 444000 valid_periodic_hourly).2.1
     (by
       show countRecIoc (periodic 3600) 0 444000 > maxMissedSchedules
       rw [countRecIoc_eq_length valid_periodic_hourly]
       decide)⟩

/-- C4 counterexample (the tests' Case 8): deadline 30 seconds, `now` 40
seconds past the hourly firing at `3600` — the evaluation reports `3600`
even though it is older than `now - deadline = 3610`: the deadline excludes
nothing from the result. -/
theorem claim_c4_counterexample :
    (⟨-300, periodic 3600, some 30, some 0⟩ : CronJob).startingDeadlineSeconds =
        some 30 ∧
      getRecentUnmetScheduleTimes ⟨-300, periodic 3600, some 30, some 0⟩ 3640 =
        .ok [3600] ∧
      (3600 : Int) < 3640 - 30 :=
  ⟨rfl, rfl, by decide⟩

/-- C4 (amended): `getRecentUnmetScheduleTimes` applies no deadline
filtering — with `startingDeadlineSeconds` set its result is identical to
the deadline-free evaluation, so it may report firing times older than
`now - deadline` (excluding those is the caller's concern) — and the
evaluation returns no error, in particular when `now` is far past the
deadline window. -/
theorem claim_c4 (sj : CronJob) (now d : Int)
    (_hd : sj.startingDeadlineSeconds = some d) :
    getRecentUnmetScheduleTimes sj now =
        getRecentUnmetScheduleTimes
          ⟨sj.creationTimestamp, sj.schedule, none, sj.lastScheduleTime⟩ now ∧
      ∀ e, getRecentUnmetScheduleTimes sj now ≠ .error e := by
  obtain ⟨c, s, d', l⟩ := sj
  exact ⟨rfl, getRecent_ne_error ⟨c, s, d', l⟩ now⟩

/-- Witness for C4: the tests' Case 8 input — deadline 30 seconds, `now`
past the deadline of the hourly firing: the result equals the deadline-free
result and no error is raised. -/
theorem claim_c4_witness :
    getRecentUnmetScheduleTimes ⟨-300, periodic 3600, some 30, some 0⟩ 3640 =
        getRecentUnmetScheduleTimes ⟨-300, periodic 3600, none, some 0⟩ 3640 ∧
      ∀ e, getRecentUnmetScheduleTimes ⟨-300, periodic 3600, some 30, some 0⟩ 3640 ≠
        .error e :=
  claim_c4 ⟨-300, periodic 3600, some 30, some 0⟩ 3640 30 rfl

/-- C9: for every schedule object with a valid expression: when exactly one
recurrence point lies strictly after the lower bound (`lastScheduleTime`, or
`creationTimestamp` when absent) and at-or-before `now`, exactly that firing
is reported; when `now` is before the first recurrence point past the lower
bound, no firing is reported. -/
theorem claim_c9 (sj : CronJob) (now p : Int) (hv : Valid sj.schedule) :
    ((Rec sj.schedule p ∧ lowerBound sj < p ∧ p ≤ now ∧
        (∀ u, Rec sj.schedule u → lowerBound sj < u → u ≤ now → u = p)) →
      getRecentUnmetScheduleTimes sj now = .ok [p]) ∧
    ((∀ u, Rec sj.schedule u → lowerBound sj < u → now < u) →
      getRecentUnmetScheduleTimes sj now = .ok []) := by
  constructor
  · rintro ⟨hp, h1, h2, huniq⟩
    have hsingle : firingsBetween sj.schedule (lowerBound sj) now = [p] := by
      apply singleton_of_pairwise_mem (pairwise_firingsBetween hv _ _)
      intro x
      rw [mem_firingsBetween hv]
      constructor
      · rintro ⟨hr, hl, hn⟩
        exact huniq x hr hl hn
      · rintro rfl
        exact ⟨hp, h1, h2⟩
    have hres := getRecent_of_length_le sj now
      (by rw [hsingle]; show 1 ≤ maxMissedSchedules; decide)
    rw [hsingle] at hres
    exact hres
  · intro hnone
    have hempty : firingsBetween sj.schedule (lowerBound sj) now = [] := by
      rw [List.eq_nil_iff_forall_not_mem]
      intro x hx
      rw [mem_firingsBetween hv] at hx
      exact absurd hx.2.2 (not_le.mpr (hnone x hx.1 hx.2.1))
    have hres := getRecent_of_length_le sj now (by rw [hempty]; decide)
    rw [hempty] at hres
    exact hres

/-- Witness for C9: hourly schedule created 600 seconds before the hour, no
recorded firing, `now` two seconds past the hour: the single recurrence
point `0` is the only reported firing. -/
theorem claim_c9_witness :
    getRecentUnmetScheduleTimes ⟨-600, periodic 3600, none, none⟩ 2 =
      .ok [0] :=
  (claim_c9 ⟨-600, periodic 3600, none, none⟩ 2 0 valid_periodic_hourly).1
    ⟨by decide, by decide, by decide, by
      intro u hu h1 h2
      have hu' : 3600 * ((u - 1) / 3600 + 1) = u := hu
      have h1' : (-600 : Int) < u := h1
      omega⟩

/-- Lexicographic comparison of character lists by character code, the
ordering underlying Go's `<` on strings. -/
def chlLt : List Char → List Char → Bool
  | [], [] => false
  | [], _ :: _ => true
  | _ :: _, [] => false
  | a :: as, b :: bs => if a.toNat = b.toNat then chlLt as bs else decide (a.toNat < b.toNat)

/-- Go's `<` comparison on strings: lexicographic on the characters. -/
def strLt (a b : String) : Bool := chlLt a.data b.data

theorem chlLt_irrefl : ∀ a : List Char, chlLt a a = false
  | [] => rfl
  | x :: xs => by simp [chlLt, chlLt_irrefl xs]

theorem chlLt_asymm : ∀ {a b : List Char}, chlLt a b = true → chlLt b a = false := by
  intro a
  induction a with
  | nil => intro b h; cases b <;> simp [chlLt] at h ⊢
  | cons x xs ih =>
    intro b h
    cases b with
    | nil => simp [chlLt] at h
    | cons y ys =>
      simp only [chlLt] at h ⊢
      by_cases hxy : x.toNat = y.toNat
      · simp [hxy] at h ⊢
        exact ih h
      · simp [hxy] at h
        simp [show y.toNat ≠ x.toNat by omega]
        omega

theorem chlLt_trichotomy : ∀ (a b : List Char), chlLt a b = true ∨ a = b ∨ chlLt b a = true := by
  intro a
  induction a with
  | nil => intro b; cases b <;> simp [chlLt]
  | cons x xs ih =>
    intro b
    cases b with
    | nil => simp [chlLt]
    | cons y ys =>
      by_cases h : x.toNat = y.toNat
      · have hxy : x = y := Char.eq_of_val_eq (UInt32.toNat.inj h)
        rcases ih ys with h1 | h1 | h1
        · left; simp [chlLt, h, h1]
        · right; left; simp [hxy, h1]
        · right; right; simp [chlLt, h1, show y.toNat = x.toNat from h.symm]
      · rcases Nat.lt_trichotomy x.toNat y.toNat with h1 | h1 | h1
        · left; simp [chlLt, h, h1]
        · exact absurd h1 h
        · right; right
          simp [chlLt, show y.toNat ≠ x.toNat by omega]
          omega

theorem chlLt_trans : ∀ {a b c : List Char},
    chlLt a b = true → chlLt b c = true → chlLt a c = true := by
  intro a
  induction a with
  | nil =>
    intro b c h1 h2
    cases b with
    | nil => simp [chlLt] at h1
    | cons y ys =>
      cases c with
      | nil => simp [chlLt] at h2
      | cons z zs => simp [chlLt]
  | cons x xs ih =>
    intro b c h1 h2
    cases b with
    | nil => simp [chlLt] at h1
    | cons y ys =>
      cases c with
      | nil => simp [chlLt] at h2
      | cons z zs =>
        simp only [chlLt] at h1 h2 ⊢
        by_cases hxy : x.toNat = y.toNat
        · rw [if_pos hxy] at h1
          by_cases hyz : y.toNat = z.toNat
          · rw [if_pos hyz] at h2
            rw [if_pos (hxy.trans hyz)]
            exact ih h1 h2
          · rw [if_neg hyz] at h2
            simp only [decide_eq_true_eq] at h2
            rw [if_neg (by omega), decide_eq_true_eq]
            omega
        · rw [if_neg hxy] at h1
          simp only [decide_eq_true_eq] at h1
          by_cases hyz : y.toNat = z.toNat
          · rw [if_neg (by omega), decide_eq_true_eq]
            omega
          · rw [if_neg hyz] at h2
            simp only [decide_eq_true_eq] at h2
            rw [if_neg (by omega), decide_eq_true_eq]
            omega

theorem chlLt_negtrans {a b c : List Char} (h1 : chlLt a b = false)
    (h2 : chlLt b c = false) : chlLt a c = false := by
  by_contra hac
  rw [Bool.not_eq_false] at hac
  rcases chlLt_trichotomy a b with hab | rfl | hab
  · rw [hab] at h1; exact absurd h1 (by simp)
  · rw [hac] at h2; exact absurd h2 (by simp)
  · rcases chlLt_trichotomy b c with hbc | rfl | hbc
    · rw [hbc] at h2; exact absurd h2 (by simp)
    · rw [hac] at h1; exact absurd h1 (by simp)
    · have := chlLt_trans hac hbc
      rw [chlLt_asymm hab] at this
      exact absurd this (by simp)

theorem string_eq_of_data_eq {a b : String} (h : a.data = b.data) : a = b :=
  congrArg String.mk h

theorem strLt_irrefl (a : String) : strLt a a = false := chlLt_irrefl a.data

theorem strLt_asymm {a b : String} (h : strLt a b = true) : strLt b a = false :=
  chlLt_asymm h

theorem strLt_negtrans {a b c : String} (h1 : strLt a b = false)
    (h2 : strLt b c = false) : strLt a c = false := chlLt_negtrans h1 h2

theorem strLt_antisymm {a b : String} (h1 : strLt a b = false)
    (h2 : strLt b a = false) : a = b := by
  rcases chlLt_trichotomy a.data b.data with h | h | h
  · exact absurd h (by rw [show chlLt a.data b.data = strLt a b from rfl, h1]; simp)
  · exact string_eq_of_data_eq h
  · exact absurd h (by rw [show chlLt b.data a.data = strLt b a from rfl, h2]; simp)

/-- An owner reference carried by a child job: the owning kind, the parent
object's unique id, and whether the reference marks the controlling owner. -/
structure OwnerReference where
  kind : String
  uid : String
  isController : Bool
deriving DecidableEq

/-- A child job, as the decision core reads it: its name, its optional start
time, and its owner references. -/
structure Job where
  name : String
  startTime : Option Int
  ownerReferences : List OwnerReference
deriving DecidableEq

/-- Modelled from the spec: the `byJobStartTime` comparator (absent from the
sources; only its tests are present) — earlier start time first, a child
lacking a start time after every child having one, and ties (equal present
start times, or both start times absent) broken by name. -/
def jobLess (a b : Job) : Bool :=
  match a.startTime, b.startTime with
  | none, none => strLt a.name b.name
  | none, some _ => false
  | some _, none => true
  | some x, some y => if x = y then strLt a.name b.name else decide (x < y)

/-- The `(startTime, name)` sort key of a child job. -/
def keyOf (j : Job) : Option Int × String := (j.startTime, j.name)

/-- The ordering the spec describes on `(startTime, name)` keys: primarily
by start time ascending, absent start times after all present ones, ties
broken by name. -/
def keyLess : Option Int × String → Option Int × String → Bool
  | (none, n1), (none, n2) => strLt n1 n2
  | (none, _), (some _, _) => false
  | (some _, _), (none, _) => true
  | (some x, n1), (some y, n2) => if x = y then strLt n1 n2 else decide (x < y)

theorem jobLess_eq_keyLess (a b : Job) : jobLess a b = keyLess (keyOf a) (keyOf b) := by
  rw [jobLess, keyOf, keyOf, keyLess.eq_def]
  rcases a.startTime with _ | x <;> rcases b.startTime with _ | y <;> rfl

theorem keyLess_asymm {k1 k2 : Option Int × String} (h : keyLess k1 k2 = true) :
    keyLess k2 k1 = false := by
  rcases k1 with ⟨_ | x, n1⟩ <;> rcases k2 with ⟨_ | y, n2⟩
  · exact strLt_asymm h
  · exact absurd h (by simp [keyLess])
  · exact rfl
  · have h' : (if x = y then strLt n1 n2 else decide (x < y)) = true := h
    show (if y = x then strLt n2 n1 else decide (y < x)) = false
    by_cases hxy : x = y
    · rw [if_pos hxy] at h'
      rw [if_pos hxy.symm]
      exact strLt_asymm h'
    · rw [if_neg hxy] at h'
      simp only [decide_eq_true_eq] at h'
      rw [if_neg (fun hh => hxy hh.symm), decide_eq_false_iff_not]
      omega

theorem keyLess_irrefl (k : Option Int × String) : keyLess k k = false := by
  rcases k with ⟨_ | x, n⟩
  · exact strLt_irrefl n
  · show (if x = x then strLt n n else decide (x < x)) = false
    rw [if_pos rfl]
    exact strLt_irrefl n

theorem keyLess_negtrans {k1 k2 k3 : Option Int × String} (h1 : keyLess k1 k2 = false)
    (h2 : keyLess k2 k3 = false) : keyLess k1 k3 = false := by
  rcases k1 with ⟨_ | x, n1⟩ <;> rcases k2 with ⟨_ | y, n2⟩ <;>
    rcases k3 with ⟨_ | z, n3⟩
  · exact strLt_negtrans h1 h2
  · exact rfl
  · exact absurd h2 (by simp [keyLess])
  · exact rfl
  · exact absurd h1 (by simp [keyLess])
  · exact absurd h1 (by simp [keyLess])
  · exact absurd h2 (by simp [keyLess])
  · have h1' : (if x = y then strLt n1 n2 else decide (x < y)) = false := h1
    have h2' : (if y = z then strLt n2 n3 else decide (y < z)) = false := h2
    show (if x = z then strLt n1 n3 else decide (x < z)) = false
    by_cases hxy : x = y <;> by_cases hyz : y = z
    · subst hxy
      subst hyz
      rw [if_pos rfl] at h1' h2' ⊢
      exact strLt_negtrans h1' h2'
    · subst hxy
      rw [if_neg hyz] at h2'
      rw [if_neg hyz]
      exact h2'
    · subst hyz
      rw [if_neg hxy] at h1'
      rw [if_neg hxy]
      exact h1'
    · rw [if_neg hxy] at h1'
      rw [if_neg hyz] at h2'
      simp only [decide_eq_false_iff_not] at h1' h2'
      by_cases hxz : x = z
      · exfalso
        omega
      · rw [if_neg hxz, decide_eq_false_iff_not]
        omega

theorem keyLess_antisymm {k1 k2 : Option Int × String} (h1 : keyLess k1 k2 = false)
    (h2 : keyLess k2 k1 = false) : k1 = k2 := by
  rcases k1 with ⟨_ | x, n1⟩ <;> rcases k2 with ⟨_ | y, n2⟩
  · rw [strLt_antisymm h1 h2]
  · exact absurd h2 (by simp [keyLess])
  · exact absurd h1 (by simp [keyLess])
  · have h1' : (if x = y then strLt n1 n2 else decide (x < y)) = false := h1
    have h2' : (if y = x then strLt n2 n1 else decide (y < x)) = false := h2
    by_cases hxy : x = y
    · subst hxy
      rw [if_pos rfl] at h1' h2'
      rw [strLt_antisymm h1' h2']
    · rw [if_neg hxy] at h1'
      rw [if_neg (fun hh => hxy hh.symm)] at h2'
      simp only [decide_eq_false_iff_not] at h1' h2'
      exfalso
      omega

theorem jobLess_asymm {a b : Job} (h : jobLess a b = true) : jobLess b a = false := by
  rw [jobLess_eq_keyLess] at h ⊢
  exact keyLess_asymm h

theorem jobLess_negtrans {a b c : Job} (h1 : jobLess a b = false)
    (h2 : jobLess b c = false) : jobLess a c = false := by
  rw [jobLess_eq_keyLess] at h1 h2 ⊢
  exact keyLess_negtrans h1 h2

theorem jobLess_irrefl_key {a b : Job} (h : keyOf a = keyOf b) : jobLess a b = false := by
  rw [jobLess_eq_keyLess, h]
  exact keyLess_irrefl _

/-- Modelled from the spec: insert a child into an already-sorted list,
before the first existing child that does not strictly precede it (so ties
keep their original relative order). -/
def insertJob (j : Job) : List Job → List Job
  | [] => [j]
  | a :: t => if jobLess a j then a :: insertJob j t else j :: a :: t

/-- Modelled from the spec: sorting a slice of child jobs with the
`byJobStartTime` comparator (a deterministic comparison sort). -/
def sortJobs : List Job → List Job
  | [] => []
  | j :: t => insertJob j (sortJobs t)

/-- The non-strict ordering induced by the comparator: `a` need not precede
`b` strictly, i.e. `b` does not strictly precede `a`. -/
def JobLe (a b : Job) : Prop := jobLess b a = false

theorem insertJob_perm (j : Job) : ∀ l, (insertJob j l).Perm (j :: l)
  | [] => List.Perm.refl _
  | a :: t => by
    show (if jobLess a j then a :: insertJob j t else j :: a :: t).Perm (j :: a :: t)
    by_cases h : jobLess a j
    · rw [if_pos h]
      exact ((insertJob_perm j t).cons a).trans (List.Perm.swap j a t)
    · rw [if_neg h]

theorem sortJobs_perm : ∀ l, (sortJobs l).Perm l
  | [] => List.Perm.refl _
  | j :: t => (insertJob_perm j (sortJobs t)).trans ((sortJobs_perm t).cons j)

theorem pairwise_insertJob {j : Job} : ∀ {l : List Job}, l.Pairwise JobLe →
    (insertJob j l).Pairwise JobLe := by
  intro l
  induction l with
  | nil => intro _; simp [insertJob, JobLe]
  | cons a t ih =>
    intro hl
    rw [List.pairwise_cons] at hl
    obtain ⟨ha, ht⟩ := hl
    show (if jobLess a j then a :: insertJob j t else j :: a :: t).Pairwise JobLe
    by_cases h : jobLess a j
    · rw [if_pos h, List.pairwise_cons]
      refine ⟨fun y hy => ?_, ih ht⟩
      rcases List.mem_cons.mp ((insertJob_perm j t).mem_iff.mp hy) with rfl | hy'
      · exact jobLess_asymm h
      · exact ha y hy'
    · rw [if_neg h, List.pairwise_cons]
      have h0 : jobLess a j = false := by simpa using h
      refine ⟨fun y hy => ?_, List.pairwise_cons.mpr ⟨ha, ht⟩⟩
      rcases List.mem_cons.mp hy with rfl | hy'
      · exact h0
      · exact jobLess_negtrans (ha y hy') h0

theorem pairwise_sortJobs : ∀ l : List Job, (sortJobs l).Pairwise JobLe
  | [] => List.Pairwise.nil
  | _ :: t => pairwise_insertJob (pairwise_sortJobs t)

/-- The sub-sequence of children carrying a given `(startTime, name)` key. -/
def filterKey (k : Option Int × String) (l : List Job) : List Job :=
  l.filter (fun x => decide (keyOf x = k))

theorem filterKey_cons (k : Option Int × String) (a : Job) (l : List Job) :
    filterKey k (a :: l) =
      if keyOf a = k then a :: filterKey k l else filterKey k l := by
  rw [filterKey, List.filter_cons]
  by_cases h : keyOf a = k
  · rw [if_pos (by simpa using h), if_pos h]
    rfl
  · rw [if_neg (by simpa using h), if_neg h]
    rfl

theorem filterKey_insertJob (j : Job) (k : Option Int × String) (l : List Job) :
    filterKey k (insertJob j l) =
      if keyOf j = k then j :: filterKey k l else filterKey k l := by
  induction l with
  | nil =>
    show filterKey k [j] = _
    rw [filterKey_cons]
  | cons a t ih =>
    show filterKey k (if jobLess a j then a :: insertJob j t else j :: a :: t) = _
    by_cases h : jobLess a j
    · rw [if_pos h, filterKey_cons]
      by_cases hak : keyOf a = k
      · by_cases hjk : keyOf j = k
        · exfalso
          have hkey : keyOf a = keyOf j := hak.trans hjk.symm
          have hf := jobLess_irrefl_key hkey
          rw [h] at hf
          exact absurd hf (by simp)
        · rw [if_pos hak, ih, if_neg hjk, filterKey_cons, if_pos hak, if_neg hjk]
      · rw [if_neg hak, ih, filterKey_cons, if_neg hak]
    · rw [if_neg h, filterKey_cons]

theorem filterKey_sortJobs (k : Option Int × String) : ∀ l : List Job,
    filterKey k (sortJobs l) = filterKey k l
  | [] => rfl
  | j :: t => by
    show filterKey k (insertJob j (sortJobs t)) = filterKey k (j :: t)
    rw [filterKey_insertJob, filterKey_cons, filterKey_sortJobs k t]

theorem jobLe_none_after {a b : Job} (h : jobLess b a = false)
    (ha : a.startTime = none) : b.startTime = none := by
  rcases hb : b.startTime with _ | y
  · rfl
  · exfalso
    rw [jobLess_eq_keyLess, keyOf, keyOf, ha, hb] at h
    simp [keyLess] at h

theorem jobLe_tie_name {a b : Job} (h : jobLess b a = false)
    (hst : a.startTime = b.startTime) : strLt b.name a.name = false := by
  rw [jobLess_eq_keyLess, keyOf, keyOf] at h
  rcases ha : a.startTime with _ | x
  · rw [ha] at hst
    rw [ha, ← hst] at h
    exact h
  · rw [ha] at hst
    rw [ha, ← hst] at h
    have h' : (if x = x then strLt b.name a.name else decide (x < x)) = false := h
    rw [if_pos rfl] at h'
    exact h'

/-- C5 counterexample: two children with equal non-absent start times do not
retain their original relative order — the comparator breaks the tie by
name, so the later-named child moves behind the earlier-named one. -/
theorem claim_c5_counterexample :
    (⟨"b", some 5, []⟩ : Job).startTime = (⟨"a", some 5, []⟩ : Job).startTime ∧
      (⟨"b", some 5, []⟩ : Job).startTime ≠ none ∧
      sortJobs [⟨"b", some 5, []⟩, ⟨"a", some 5, []⟩] =
        [⟨"a", some 5, []⟩, ⟨"b", some 5, []⟩] :=
  ⟨rfl, by simp, by decide⟩

/-- C5 (amended): sorting by `byJobStartTime` permutes the input so that
every child with an absent start time is placed after all children with a
present start time, regardless of input order; children with equal
`(startTime, name)` keys retain their original relative order; but children
with equal non-absent start times and different names are ordered by name,
not by input position (ties in start time are broken by name). -/
theorem claim_c5 (l : List Job) :
    (sortJobs l).Perm l ∧
      (sortJobs l).Pairwise (fun a b => a.startTime = none → b.startTime = none) ∧
      (∀ k, filterKey k (sortJobs l) = filterKey k l) ∧
      (sortJobs l).Pairwise (fun a b => a.startTime = b.startTime →
        strLt b.name a.name = false) := by
  refine ⟨sortJobs_perm l, ?_, fun k => filterKey_sortJobs k l, ?_⟩
  · exact (pairwise_sortJobs l).imp (fun hab ha => jobLe_none_after hab ha)
  · exact (pairwise_sortJobs l).imp (fun hab hst => jobLe_tie_name hab hst)

/-- C6: the `byJobStartTime` comparator coincides with the spec's ordering
on `(startTime, name)` keys — primarily by start time ascending, absent
start times after all present ones, ties broken by name — and consequently
the sorted key sequence is a deterministic function of the multiset of
children: permuting the input does not change it. -/
theorem claim_c6 :
    (∀ a b : Job, jobLess a b = keyLess (keyOf a) (keyOf b)) ∧
      ∀ l1 l2 : List Job, l1.Perm l2 →
        (sortJobs l1).map keyOf = (sortJobs l2).map keyOf := by
  refine ⟨jobLess_eq_keyLess, fun l1 l2 hp => ?_⟩
  have hperm : ((sortJobs l1).map keyOf).Perm ((sortJobs l2).map keyOf) :=
    ((sortJobs_perm l1).map keyOf).trans ((hp.trans (sortJobs_perm l2).symm).map keyOf)
  have hmap : ∀ a b : Job, JobLe a b → keyLess (keyOf b) (keyOf a) = false := by
    intro a b hab
    rw [← jobLess_eq_keyLess]
    exact hab
  have hs1 : ((sortJobs l1).map keyOf).Pairwise (fun k1 k2 => keyLess k2 k1 = false) :=
    List.Pairwise.map keyOf hmap (pairwise_sortJobs l1)
  have hs2 : ((sortJobs l2).map keyOf).Pairwise (fun k1 k2 => keyLess k2 k1 = false) :=
    List.Pairwise.map keyOf hmap (pairwise_sortJobs l2)
  exact @List.eq_of_perm_of_sorted _ _
    ⟨fun k1 k2 h1 h2 => keyLess_antisymm h2 h1⟩ _ _ hperm hs1 hs2

/-- Witness for C6: permuting two equal-start-time children does not change
the sorted key sequence. -/
theorem claim_c6_witness :
    (sortJobs [⟨"b", some 5, []⟩, ⟨"a", some 5, []⟩]).map keyOf =
      (sortJobs [⟨"a", some 5, []⟩, ⟨"b", some 5, []⟩]).map keyOf :=
  claim_c6.2 _ _ (List.Perm.swap (⟨"a", some 5, []⟩ : Job) (⟨"b", some 5, []⟩ : Job) [])

/-- Modelled from the spec: `getParentUIDFromJob` (absent from the sources;
only its tests are present) — the unique id carried by the child's
controller-marked owner reference, or not-found when the child has no owner
reference or none of its references is controller-marked. -/
def getParentUIDFromJob (j : Job) : Option String :=
  (j.ownerReferences.find? (fun r => r.isController)).map (fun r => r.uid)

/-- C7: `getParentUIDFromJob` finds a uid exactly when the child carries a
controller-marked owner reference, and the uid it returns is the unique id
carried by such a reference. -/
theorem claim_c7 (j : Job) :
    ((getParentUIDFromJob j).isSome ↔
        ∃ r ∈ j.ownerReferences, r.isController = true) ∧
      ∀ u, getParentUIDFromJob j = some u →
        ∃ r ∈ j.ownerReferences, r.isController = true ∧ r.uid = u := by
  constructor
  · constructor
    · intro hs
      rw [getParentUIDFromJob] at hs
      rcases hf : j.ownerReferences.find? (fun r => r.isController) with _ | r
      · rw [hf] at hs
        exact absurd hs (by simp)
      · exact ⟨r, List.mem_of_find?_eq_some hf, List.find?_some hf⟩
    · rintro ⟨r, hmem, hc⟩
      rw [getParentUIDFromJob]
      rcases hf : j.ownerReferences.find? (fun r => r.isController) with _ | r'
      · have hnone := List.find?_eq_none.mp hf r hmem
        rw [hc] at hnone
        exact absurd rfl hnone
      · rw [hf]
        rfl
  · intro u hu
    rw [getParentUIDFromJob] at hu
    rcases hf : j.ownerReferences.find? (fun r => r.isController) with _ | r
    · rw [hf] at hu
      exact absurd hu (by simp)
    · rw [hf] at hu
      simp only [Option.map_some', Option.some.injEq] at hu
      exact ⟨r, List.mem_of_find?_eq_some hf, List.find?_some hf, hu⟩

/-- Modelled from the spec: append a child to its parent's group in the
association-list map, creating the group at the end on first use. -/
def addToGroup (m : List (String × List Job)) (u : String) (j : Job) :
    List (String × List Job) :=
  match m with
  | [] => [(u, [j])]
  | (k, l) :: rest =>
    if k = u then (k, l ++ [j]) :: rest else (k, l) :: addToGroup rest u j

/-- Modelled from the spec: one fold step of grouping — children whose
parent cannot be resolved are silently skipped. -/
def groupStep (m : List (String × List Job)) (j : Job) :
    List (String × List Job) :=
  match getParentUIDFromJob j with
  | some u => addToGroup m u j
  | none => m

/-- Modelled from the spec: `groupJobsByParent` (absent from the sources;
only its tests are present) — fold the children in input order into a map
from parent unique id to that parent's children. -/
def groupJobsByParent (js : List Job) : List (String × List Job) :=
  js.foldl groupStep []

/-- Lookup of a parent's group in the association-list map. -/
def lookupGroup (m : List (String × List Job)) (u : String) : Option (List Job) :=
  match m with
  | [] => none
  | (k, l) :: rest => if k = u then some l else lookupGroup rest u

theorem lookupGroup_addToGroup (u u' : String) (j : Job) :
    ∀ m, lookupGroup (addToGroup m u j) u' =
      if u' = u then some ((lookupGroup m u).getD [] ++ [j])
      else lookupGroup m u' := by
  intro m
  induction m with
  | nil =>
    show (if u = u' then some [j] else lookupGroup [] u') = _
    by_cases h : u' = u
    · rw [if_pos h.symm, if_pos h]
      rfl
    · rw [if_neg (fun hh => h hh.symm), if_neg h]
  | cons p rest ih =>
    rcases p with ⟨k, l⟩
    by_cases hk : k = u
    · by_cases h : u' = u
      · rw [if_pos h]
        show lookupGroup (if k = u then (k, l ++ [j]) :: rest
          else (k, l) :: addToGroup rest u j) u' = _
        rw [if_pos hk]
        show (if k = u' then some (l ++ [j]) else lookupGroup rest u') =
          some ((if k = u then some l else lookupGroup rest u).getD [] ++ [j])
        rw [if_pos (hk.trans h.symm), if_pos hk]
        rfl
      · rw [if_neg h]
        show lookupGroup (if k = u then (k, l ++ [j]) :: rest
          else (k, l) :: addToGroup rest u j) u' =
          (if k = u' then some l else lookupGroup rest u')
        rw [if_pos hk]
        show (if k = u' then some (l ++ [j]) else lookupGroup rest u') = _
        have hku' : ¬ k = u' := fun hh => h (hh.symm.trans hk)
        rw [if_neg hku', if_neg hku']
    · by_cases h : u' = u
      · rw [if_pos h]
        show lookupGroup (if k = u then (k, l ++ [j]) :: rest
          else (k, l) :: addToGroup rest u j) u' =
          some ((if k = u then some l else lookupGroup rest u).getD [] ++ [j])
        rw [if_neg hk, if_neg hk]
        show (if k = u' then some l else lookupGroup (addToGroup rest u j) u') = _
        rw [if_neg (fun hh => hk (hh.trans h)), ih, if_pos h]
      · rw [if_neg h]
        show lookupGroup (if k = u then (k, l ++ [j]) :: rest
          else (k, l) :: addToGroup rest u j) u' =
          (if k = u' then some l else lookupGroup rest u')
        rw [if_neg hk]
        show (if k = u' then some l else lookupGroup (addToGroup rest u j) u') = _
        rw [ih, if_neg h]

/-- The children of `js` whose resolved parent id is `u`, in input order. -/
def childrenOf (u : String) (js : List Job) : List Job :=
  js.filter (fun j => decide (getParentUIDFromJob j = some u))

theorem childrenOf_cons (u : String) (j : Job) (js : List Job) :
    childrenOf u (j :: js) =
      if getParentUIDFromJob j = some u then j :: childrenOf u js
      else childrenOf u js := by
  rw [childrenOf, List.filter_cons]
  by_cases h : getParentUIDFromJob j = some u
  · rw [if_pos (by simpa using h), if_pos h]
    rfl
  · rw [if_neg (by simpa using h), if_neg h]
    rfl

theorem lookupGroup_foldl (u : String) : ∀ (js : List Job) (m : List (String × List Job)),
    ((lookupGroup (js.foldl groupStep m) u).getD [] =
        (lookupGroup m u).getD [] ++ childrenOf u js) ∧
      (lookupGroup (js.foldl groupStep m) u = none ↔
        lookupGroup m u = none ∧ childrenOf u js = []) := by
  intro js
  induction js with
  | nil =>
    intro m
    constructor
    · show (lookupGroup m u).getD [] = (lookupGroup m u).getD [] ++ childrenOf u []
      rw [show childrenOf u [] = [] from rfl, List.append_nil]
    · show lookupGroup m u = none ↔ lookupGroup m u = none ∧ childrenOf u [] = []
      rw [show childrenOf u [] = [] from rfl]
      simp
  | cons j rest ih =>
    intro m
    have hfold : (j :: rest).foldl groupStep m = rest.foldl groupStep (groupStep m j) := rfl
    rw [hfold]
    rcases hp : getParentUIDFromJob j with _ | u'
    · have hstep : groupStep m j = m := by rw [groupStep, hp]
      have hch : childrenOf u (j :: rest) = childrenOf u rest := by
        rw [childrenOf_cons, if_neg (by rw [hp]; simp)]
      rw [hstep, hch]
      exact ih m
    · have hstep : groupStep m j = addToGroup m u' j := by rw [groupStep, hp]
      rw [hstep]
      obtain ⟨ih1, ih2⟩ := ih (addToGroup m u' j)
      by_cases hu : u = u'
      · subst hu
        have hch : childrenOf u (j :: rest) = j :: childrenOf u rest := by
          rw [childrenOf_cons, if_pos hp]
        constructor
        · rw [ih1, lookupGroup_addToGroup, if_pos rfl, hch]
          simp
        · rw [ih2, lookupGroup_addToGroup, if_pos rfl, hch]
          simp
      · have hne : ¬ u = u' := hu
        have hch : childrenOf u (j :: rest) = childrenOf u rest := by
          rw [childrenOf_cons, if_neg ?_]
          rw [hp]
          simp only [Option.some.injEq]
          exact fun hh => hu hh.symm
        constructor
        · rw [ih1, lookupGroup_addToGroup, if_neg hne, hch]
        · rw [ih2, lookupGroup_addToGroup, if_neg hne, hch]

theorem addToGroup_values_ne_nil {m : List (String × List Job)} {u : String} {j : Job}
    (hm : ∀ p ∈ m, p.2 ≠ []) : ∀ p ∈ addToGroup m u j, p.2 ≠ [] := by
  induction m with
  | nil =>
    intro p hp
    rcases List.mem_singleton.mp hp with rfl
    simp
  | cons q rest ih =>
    rcases q with ⟨k, l⟩
    intro p hp
    rw [addToGroup] at hp
    by_cases hk : k = u
    · rw [if_pos hk] at hp
      rcases List.mem_cons.mp hp with rfl | hp'
      · simp
      · exact hm p (List.mem_cons_of_mem _ hp')
    · rw [if_neg hk] at hp
      rcases List.mem_cons.mp hp with rfl | hp'
      · exact hm _ (List.mem_cons_self _ _)
      · exact ih (fun q hq => hm q (List.mem_cons_of_mem _ hq)) p hp'

theorem foldl_values_ne_nil : ∀ (js : List Job) (m : List (String × List Job)),
    (∀ p ∈ m, p.2 ≠ []) → ∀ p ∈ js.foldl groupStep m, p.2 ≠ [] := by
  intro js
  induction js with
  | nil => intro m hm; exact hm
  | cons j rest ih =>
    intro m hm
    show ∀ p ∈ rest.foldl groupStep (groupStep m j), p.2 ≠ []
    apply ih
    rw [groupStep]
    rcases getParentUIDFromJob j with _ | u'
    · exact hm
    · exact addToGroup_values_ne_nil hm

/-- C8: `groupJobsByParent` maps each parent unique id to exactly the
children whose controller-marked owner reference carries that id, in input
order; children with no resolvable parent appear in no group; and the map
has an entry only for parent ids owning at least one child. -/
theorem claim_c8 (js : List Job) (u : String) :
    (lookupGroup (groupJobsByParent js) u =
        if childrenOf u js = [] then none else some (childrenOf u js)) ∧
      ∀ p ∈ groupJobsByParent js, p.2 ≠ [] := by
  refine ⟨?_, foldl_values_ne_nil js [] (by simp)⟩
  obtain ⟨h1, h2⟩ := lookupGroup_foldl u js []
  rw [groupJobsByParent]
  by_cases hc : childrenOf u js = []
  · rw [if_pos hc, h2]
    exact ⟨rfl, hc⟩
  · rw [if_neg hc]
    rcases ho : lookupGroup (js.foldl groupStep []) u with _ | l
    · exact absurd (h2.mp ho).2 hc
    · rw [ho] at h1
      simp only [Option.getD_some] at h1
      have h1' : l = childrenOf u js := by
        rw [h1]
        rfl
      rw [h1']

/-- The fully-qualified names of the collectors registered by the cronjob
controller (the subsystem-prefixed metric names of `metrics.go`). -/
def cronjobCollectors : List String :=
  ["cronjob_controller_scheduling_decision_invoke",
   "cronjob_controller_scheduling_decision_skip",
   "cronjob_controller_job_succeeded",
   "cronjob_controller_job_failed",
   "cronjob_controller_sync_one_wall_time_gauge_seconds",
   "cronjob_controller_sync_one_wall_time_histogram_seconds",
   "cronjob_controller_sync_all_wall_time_gauge_seconds",
   "cronjob_controller_sync_all_wall_time_histogram_seconds"]

/-- Process-wide metrics state: whether the `sync.Once` guard has already
run, and which collector names the Prometheus registry holds. -/
structure MetricsState where
  registerDone : Bool
  registry : List String
deriving DecidableEq

/-- Prometheus `MustRegister` on one collector: panics (modelled as `none`)
when a collector with the same name is already registered, and otherwise
appends it to the registry. -/
def mustRegister (reg : List String) (c : String) : Option (List String) :=
  if c ∈ reg then none else some (reg ++ [c])

/-- `MustRegister` applied to each collector in turn, propagating a panic. -/
def mustRegisterAll : List String → List String → Option (List String)
  | reg, [] => some reg
  | reg, c :: cs =>
    match mustRegister reg c with
    | none => none
    | some r => mustRegisterAll r cs

/-- `registerMetrics`: under the `sync.Once` guard, the registration block
runs at most once per process; later calls return the state unchanged. -/
def registerMetrics (st : MetricsState) : Option MetricsState :=
  if st.registerDone then some st
  else
    match mustRegisterAll st.registry cronjobCollectors with
    | none => none
    | some r => some ⟨true, r⟩

/-- The metrics state at process start: guard not yet run, empty registry. -/
def initialMetricsState : MetricsState := ⟨false, []⟩

/-- The state of `n` successive `registerMetrics` calls from process start. -/
def registerMetricsN : Nat → Option MetricsState
  | 0 => some initialMetricsState
  | n + 1 =>
    match registerMetricsN n with
    | none => none
    | some st => registerMetrics st

/-- The state after one successful registration pass: guard fired, every
collector registered. -/
def registeredMetricsState : MetricsState := ⟨true, cronjobCollectors⟩

theorem registerMetricsN_succ_eq :
    ∀ k : Nat, registerMetricsN (k + 1) = some registeredMetricsState
  | 0 => by decide
  | k + 1 => by
    show (match registerMetricsN (k + 1) with
      | none => none
      | some st => registerMetrics st) = some registeredMetricsState
    rw [registerMetricsN_succ_eq k]
    rfl

/-- C10: calling `registerMetrics` any number of times from process start
never reaches the duplicate-registration panic inside `MustRegister` and
always ends in the same registered state — every call after the first is a
no-op — with each collector registered exactly once. -/
theorem claim_c10 (n : Nat) (h : 1 ≤ n) :
    registerMetricsN n = some registeredMetricsState ∧
      ∀ c ∈ cronjobCollectors, registeredMetricsState.registry.count c = 1 := by
  refine ⟨?_, by decide⟩
  cases n with
  | zero => omega
  | succ k => exact registerMetricsN_succ_eq k

/-- Witness for C10: three calls land in the registered state with every
collector counted once. -/
theorem claim_c10_witness :
    registerMetricsN 3 = some registeredMetricsState ∧
      ∀ c ∈ cronjobCollectors, registeredMetricsState.registry.count c = 1 :=
  claim_c10 3 (by decide)

end CronjobVerify
